import Mathlib

/-!
Verification development for the `l5x` tag-access library.

The definitions below are a shallow embedding of the Python source:

* `l5x/rawtypes.py` / `l5x/atomic.py` — atomic codecs over raw byte buffers
  (little-endian two's-complement integers, packed BOOL bits);
* `l5x/array.py` — raw array addressing (`get_buffer`, `RawSize`,
  `BoolRawSize`, `get_operand`);
* `l5x/tag.py` — decorated (XML-attribute) value access: `IntegerValue`,
  `BitValue`, `ArrayShape`, `Array.resize`, `StructureValue`,
  `Data.build_operand`.

Python machine integers are modelled as `Int` with explicit reduction
modulo `2^w`; raw buffers as `List Nat` of byte values (bit patterns,
`0..255`); Python values as the inductive `PyVal` (where `bool` is a
subtype of `int`, as in Python); raised exceptions as error results.
XML attributes holding serialized dimension lists are modelled as the
corresponding token lists of numbers, with the textual join (space- or
comma-separated decimal rendering) provided separately for the concrete
serialization facts.  Python's arbitrary-precision `int` bitwise
operators `|`, `&`, `~` are `Int.lor`, `Int.land`, `Int.lnot`, which have
identical two's-complement semantics.
-/

namespace L5X

/-- Error kinds corresponding to the Python exceptions raised by the code. -/
inductive PyError where
  | typeError
  | valueError
  | indexError
  | keyError
  | attributeError
deriving DecidableEq

/-- Python values, as far as the embedded code inspects them. -/
inductive PyVal where
  | none
  | int (i : Int)
  | bool (b : Bool)
  | str (s : String)
  | tuple (l : List PyVal)
  | dict (l : List (String × PyVal))

/-- Python `isinstance(v, int)`: `bool` is a subtype of `int`. -/
def pyIsInstInt : PyVal → Bool
  | .int _ => true
  | .bool _ => true
  | _ => false

/-- Python `isinstance(v, bool)`. -/
def pyIsInstBool : PyVal → Bool
  | .bool _ => true
  | _ => false

/-- Python `isinstance(v, tuple)`. -/
def pyIsInstTuple : PyVal → Bool
  | .tuple _ => true
  | _ => false

/-- The integer a Python `int`-instance stands for (`True` is `1`, `False` is `0`). -/
def pyToInt : PyVal → Int
  | .int i => i
  | .bool b => cond b 1 0
  | _ => 0

namespace Atomic

/-!
### `l5x/atomic.py` — integer codec

`integer_limits` computes `bits = raw_size * 8`, `value_min = -2^(bits-1)`,
`value_max = 2^(bits-1) - 1`.  `IntegerValue.__set__` validates
`isinstance(value, int)` (`TypeError` otherwise) and the range
(`ValueError` otherwise), then stores the value through a
`ctypes.LittleEndianStructure` of the exact width (`rawtypes.py`), i.e. as
`raw_size` little-endian two's-complement bytes.  `__get__` reads those
bytes back.  The kinds are SINT/INT/DINT/LINT with `raw_size` 1/2/4/8.
-/

/-- `integer_limits`: number of value bits of an `n`-byte integer kind. -/
def bits (n : Nat) : Nat := 8 * n

/-- `integer_limits`: `value_min = -2 ** (bits - 1)`. -/
def value_min (n : Nat) : Int := -(2 ^ (bits n - 1))

/-- `integer_limits`: `value_max = (2 ** (bits - 1)) - 1`. -/
def value_max (n : Nat) : Int := 2 ^ (bits n - 1) - 1

/-- Little-endian byte decomposition of an unsigned value: `n` bytes, least
significant first (the memory image of a `ctypes` little-endian integer). -/
def leBytes : Nat → Nat → List Nat
  | 0, _ => []
  | n + 1, u => u % 256 :: leBytes n (u / 256)

/-- Recombine little-endian bytes into the unsigned value they encode. -/
def leDecode : List Nat → Nat
  | [] => 0
  | b :: bs => b + 256 * leDecode bs

/-- Reinterpret an unsigned `w`-bit pattern as a two's-complement signed value. -/
def toSigned (w : Nat) (u : Nat) : Int :=
  if u < 2 ^ (w - 1) then (u : Int) else (u : Int) - 2 ^ w

/-- Store a signed value into `n` bytes: two's-complement reduction modulo
`2^(8n)` followed by the little-endian byte split. -/
def store (n : Nat) (v : Int) : List Nat :=
  leBytes n (v % (2 ^ bits n : Int)).toNat

/-- Read back an `n`-byte little-endian two's-complement integer. -/
def load (n : Nat) (bytes : List Nat) : Int :=
  toSigned (bits n) (leDecode bytes)

/-- `IntegerValue.__set__` of `atomic.py`: type check, range check, then the
raw store.  Returns the bytes written, or the exception raised. -/
def integer_write (n : Nat) (v : PyVal) : Except PyError (List Nat) :=
  if pyIsInstInt v = false then .error .typeError
  else if pyToInt v < value_min n ∨ value_max n < pyToInt v then .error .valueError
  else .ok (store n (pyToInt v))

/-!
### `l5x/atomic.py` — BOOL bit addressing

`BOOL.get_bit_buffer` targets the byte `bit // 8` of the host buffer,
`BOOL.get_bit_position` yields `bit % 8`, and `BOOL.get_mask` is
`1 << bit` for the in-byte bit.  `BoolValue.__get__` tests `raw & mask`;
`BoolValue.__set__` validates the value (integer, 0 or 1) and applies
`before | mask` or `before & ~mask`, the result being truncated by the
`c_int8` store.  `BoolArray.get_member_object` composes these for a flat
element index.
-/

/-- `BOOL.get_bit_buffer`: index of the byte containing a given bit. -/
def get_bit_index (bit : Nat) : Nat := bit / 8

/-- `BOOL.get_bit_position`: the target bit within the selected byte. -/
def get_bit_position (bit : Nat) : Nat := bit % 8

/-- `BOOL.get_mask`: `1 << self.bit` as a Python integer. -/
def get_mask (bit : Nat) : Int := 2 ^ bit

/-- `BoolValue.__get__` on a stored byte pattern: `1 if raw & mask else 0`,
where `raw` is the byte read back through the signed `c_int8` view. -/
def boolvalue_get (byte : Nat) (bit : Nat) : Nat :=
  if Int.land (toSigned 8 byte) (get_mask bit) ≠ 0 then 1 else 0

/-- `BoolValue.__set__` on a stored byte pattern: validate, then
read-modify-write the byte; the `c_int8` store keeps the low 8 bits. -/
def boolvalue_set (byte : Nat) (bit : Nat) (v : PyVal) : Except PyError Nat :=
  if pyIsInstInt v = false then .error .typeError
  else if pyToInt v < 0 ∨ 1 < pyToInt v then .error .valueError
  else if pyToInt v ≠ 0 then
    .ok ((Int.lor (toSigned 8 byte) (get_mask bit)) % 256).toNat
  else
    .ok ((Int.land (toSigned 8 byte) (Int.lnot (get_mask bit))) % 256).toNat

/-- Reading element `i` of a BOOL array over buffer `buf`
(`BoolArray.get_member_object` followed by `BoolValue.__get__`). -/
def bool_array_get (buf : List Nat) (i : Nat) : Nat :=
  boolvalue_get (buf.getD (get_bit_index i) 0) (get_bit_position i)

/-- Writing element `i` of a BOOL array: only the byte `i / 8` selected by
`get_bit_buffer` is touched. -/
def bool_array_set (buf : List Nat) (i : Nat) (v : PyVal) : Except PyError (List Nat) :=
  match boolvalue_set (buf.getD (get_bit_index i) 0) (get_bit_position i) v with
  | .ok byte => .ok (buf.set (get_bit_index i) byte)
  | .error e => .error e

/-- `Integer._get_bit_operand` (also `Bit.build_operand` of `tag.py`):
`'.'.join((operand, str(bit)))`. -/
def get_bit_operand (op : String) (bit : Nat) : String :=
  op ++ "." ++ Nat.repr bit

end Atomic

namespace ArrayRaw

/-!
### `l5x/array.py` — raw array addressing

`Base.get_dim` parses the serialized dimension attribute and reverses it,
so the modelled `shape` lists the least-significant dimension first
(`shape[x]` is `DimX`).  `Array.get_buffer(index)` slices the current
buffer at `start = num_bytes * index` with
`num_bytes = reduce(mul, shape[:-num_dim], member_raw_size)` where
`num_dim = len(subarray_dim) + 1` counts the subscripts consumed so far.
Nested subscripts slice the previous slice, so absolute offsets add up.
-/

/-- `functools.reduce(operator.mul, l, init)`. -/
def prodInit (init : Nat) (l : List Nat) : Nat := l.foldl (· * ·) init

/-- `Array.get_buffer`: size in bytes of the slice produced for the
`num_dim`-th consumed subscript (`num_dim ≥ 1`);
`shape[:-num_dim]` are the still-unspecified dimensions. -/
def get_buffer_num_bytes (shape : List Nat) (esize : Nat) (num_dim : Nat) : Nat :=
  prodInit esize (shape.take (shape.length - num_dim))

/-- `Array.get_buffer`: starting byte of the slice for a given index,
relative to the enclosing (sub)array's buffer. -/
def get_buffer_start (shape : List Nat) (esize : Nat) (num_dim index : Nat) : Nat :=
  get_buffer_num_bytes shape esize num_dim * index

/-- Absolute byte offset of the buffer reached after applying the
subscripts `sub` (most-significant dimension first, the order in which
`__getitem__` consumes them), starting with `c` subscripts already
consumed.  Each step adds the relative start of the next slice. -/
def element_offset_from (shape : List Nat) (esize : Nat) : Nat → List Nat → Nat
  | _, [] => 0
  | c, i :: rest =>
    get_buffer_start shape esize (c + 1) i + element_offset_from shape esize (c + 1) rest

/-- Absolute byte offset of the element addressed by a full subscript
tuple `sub` (most-significant dimension first). -/
def element_offset (shape : List Nat) (esize : Nat) (sub : List Nat) : Nat :=
  element_offset_from shape esize 0 sub

/-- `RawSize.__get__`: raw footprint of a non-BOOL array inside a UDT:
the element storage `reduce(mul, dim, member_raw_size)` rounded up to a
32-bit boundary by `tail_pad = (4 - data_size % 4) % 4`. -/
def array_raw_size (shape : List Nat) (esize : Nat) : Nat :=
  prodInit esize shape + (4 - prodInit esize shape % 4) % 4

/-- `BoolRawSize.__get__`: raw footprint of a BOOL array is `dim[0] // 8`. -/
def bool_array_raw_size (shape : List Nat) : Nat := shape.headD 0 / 8

/-- A subscript tuple is within bounds when each entry is below its
dimension; `rshape` lists dimensions most-significant first (the order in
which `__getitem__` checks them), i.e. `rshape = shape.reverse`. -/
def ValidSub (rshape sub : List Nat) : Prop :=
  List.Forall₂ (fun d j => j < d) rshape sub

/-- Mixed-radix value of a subscript tuple (most-significant first) with
respect to the dimension list `rshape` (most-significant first): the
flat element index in row-major order. -/
def subVal : List Nat → List Nat → Nat
  | _ :: ds, j :: js => j * ds.prod + subVal ds js
  | _, _ => 0

/-- The property that every byte below `footprint` falls inside the span
of some in-bounds element (spans have `esize` bytes). -/
def coversFootprint (shape : List Nat) (esize : Nat) (footprint : Nat) : Prop :=
  ∀ b : Nat, b < footprint →
    ∃ sub : List Nat, ValidSub shape.reverse sub ∧
      element_offset shape esize sub ≤ b ∧ b < element_offset shape esize sub + esize

/-- `Base.get_operand` of `array.py`: previously applied subscripts
(`subarray_dim`, most recent first) are reversed into display order, the
new index appended, and the list rendered inside square brackets. -/
def get_operand (op : String) (subarray_dim : List Nat) (index : Nat) : String :=
  op ++ "[" ++ String.intercalate "," ((subarray_dim.reverse ++ [index]).map Nat.repr) ++ "]"

/-- Accumulation of applied subscripts as performed by
`Base.__getitem__`: each new index is inserted at position 0
(`new_dim.insert(0, index)`). -/
def accumIndices (applied : List Nat) : List Nat :=
  applied.foldl (fun acc i => i :: acc) []

end ArrayRaw

namespace TagData

/-!
### `l5x/tag.py` — decorated data model

Values live in XML attributes; integers are stored as decimal text and
modelled here by the `Int` they denote.
-/

/-- Python `str.upper()` for the ASCII names/indices that occur in
operands, modelled as a per-character map. -/
def upper (s : String) : String := String.mk (s.data.map Char.toUpper)

/-- Which XML attribute identifies a piece of data for operand purposes:
array members carry `Index` (with brackets included in the value), all
other members carry `Name`. -/
inductive OperandAttr where
  | index (s : String)
  | name (s : String)

/-- `Data.build_operand`: the root (no parent) gets the empty operand;
`Index` values are appended with no separator, `Name` values with a dot;
both are upper-cased. -/
def build_operand (parent : Option String) (attr : OperandAttr) : String :=
  match parent, attr with
  | .none, _ => ""
  | .some p, .index s => p ++ upper s
  | .some p, .name s => p ++ "." ++ upper s

/-- `IntegerValue.__set__` of `tag.py`: rejects non-`int` values and
`bool` values (`TypeError`), range-checks (`ValueError`), then stores.
Returns the resulting stored value with the exception, if any; a raise
happens before the store, leaving the old value in place. -/
def integervalue_set (vmin vmax : Int) (st : Int) (v : PyVal) : Int × Option PyError :=
  if pyIsInstInt v = false ∨ pyIsInstBool v = true then (st, some .typeError)
  else if pyToInt v < vmin ∨ vmax < pyToInt v then (st, some .valueError)
  else (pyToInt v, none)

/-- `BitValue.get_ctype`: `bit.parent.ctype(bit.parent.value)` — the
exact-width signed reinterpretation of a value, i.e. reduction modulo
`2^w` followed by the two's-complement reading. -/
def ctypeTrunc (w : Nat) (x : Int) : Int :=
  Atomic.toSigned w (x % (2 ^ w : Int)).toNat

/-- `Bit.__init__`: `self.mask = parent.ctype(1 << bit)`. -/
def bitMask (w : Nat) (b : Nat) : Int := ctypeTrunc w (2 ^ b)

/-- `BitValue.__get__`: test `cvalue.value & mask.value`. -/
def bitvalue_get (w : Nat) (v : Int) (b : Nat) : Nat :=
  if Int.land (ctypeTrunc w v) (bitMask w b) ≠ 0 then 1 else 0

/-- `BitValue.__set__`: validate the bit value, then or-in or mask-out the
bit on the ctype view and store the truncated result back through
`parent.value`.  Returns the parent integer's new value. -/
def bitvalue_set (w : Nat) (v : Int) (b : Nat) (bv : PyVal) : Except PyError Int :=
  if pyIsInstInt bv = false then .error .typeError
  else if pyToInt bv < 0 ∨ 1 < pyToInt bv then .error .valueError
  else if pyToInt bv ≠ 0 then .ok (ctypeTrunc w (Int.lor (ctypeTrunc w v) (bitMask w b)))
  else .ok (ctypeTrunc w (Int.land (ctypeTrunc w v) (Int.lnot (bitMask w b))))

/-!
### `l5x/tag.py` — array shape and resize

An array tag's state, as far as `resize` touches it: the `Dimensions`
attribute of the top-level `Tag` element, the `Dimensions` attribute of
the `Array` element (both stored most-significant dimension first; the
textual attribute is the space- resp. comma-joined decimal rendering of
the token list modelled here), and the `Index` attributes of the
`Element` children in document order (each modelled by its tuple of
subscripts, most-significant first).
-/

structure ArrayState where
  tag_dims : List Nat
  elem_dims : List Nat
  indices : List (List Nat)

/-- `ArrayShape.__get__`: parse the `Array` element's `Dimensions`
attribute and reverse it, so `DimX = shape[X]`. -/
def shape_get (st : ArrayState) : List Nat := st.elem_dims.reverse

/-- `Array.set_dimensions`: serialize the new shape most-significant
first into both `Dimensions` attributes. -/
def set_dimensions (st : ArrayState) (shape : List Nat) : ArrayState :=
  { st with tag_dims := shape.reverse, elem_dims := shape.reverse }

/-- `itertools.product`: all combinations of the given ranges, first
range varying slowest (the last supplied range varies fastest). -/
def cartProd : List (List Nat) → List (List Nat)
  | [] => [[]]
  | xs :: rest => xs.flatMap (fun x => (cartProd rest).map (fun t => x :: t))

/-- `Array.build_new_indices`: `itertools.product` over the per-dimension
ranges, reversed so the most-significant dimension comes first (and the
least-significant dimension varies fastest). -/
def build_new_indices (shape : List Nat) : List (List Nat) :=
  cartProd ((shape.map List.range).reverse)

/-- `Array.resize`: update the dimension attributes, then regenerate one
element per new index. -/
def resize (st : ArrayState) (shape : List Nat) : ArrayState :=
  { set_dimensions st shape with indices := build_new_indices shape }

/-- Textual form of the top-level `Tag` element's `Dimensions` attribute
(space separators). -/
def tag_dims_string (st : ArrayState) : String :=
  String.intercalate " " (st.tag_dims.map Nat.repr)

/-- Textual form of the `Array` element's `Dimensions` attribute (comma
separators). -/
def elem_dims_string (st : ArrayState) : String :=
  String.intercalate "," (st.elem_dims.map Nat.repr)

/-- `Array.append_element`: the `Index` attribute written for a generated
element. -/
def index_attr (i : List Nat) : String :=
  "[" ++ String.intercalate "," (i.map Nat.repr) ++ "]"

/-- The dimension checks inside the loop of `ArrayShape.check_shape`:
each entry must be an `int` instance (`TypeError`) of value at least 1
(`ValueError`); the first offending entry raises. -/
def check_shape_dims : List PyVal → Option PyError
  | [] => none
  | d :: rest =>
    if pyIsInstInt d = false then some .typeError
    else if pyToInt d < 1 then some .valueError
    else check_shape_dims rest

/-- `ArrayShape.check_shape`: the shape must be a tuple (`TypeError`) of
1 to 3 dimensions (`ValueError`), each a positive integer. -/
def check_shape (v : PyVal) : Option PyError :=
  match v with
  | .tuple l =>
    if l.length < 1 ∨ 3 < l.length then some .valueError
    else check_shape_dims l
  | _ => some .typeError

/-- The shape denoted by a validated tuple. -/
def toShape (l : List PyVal) : List Nat := l.map (fun d => (pyToInt d).toNat)

/-- `ArrayShape.__set__`: member arrays (element tag other than `Array`)
cannot be resized (`AttributeError`); otherwise the whole target shape is
validated by `check_shape` before `resize` performs any mutation, so a
failed validation leaves the state untouched. -/
def arrayshape_set (is_top_level : Bool) (st : ArrayState) (v : PyVal) :
    ArrayState × Option PyError :=
  if is_top_level = false then (st, some .attributeError)
  else
    match check_shape v with
    | some e => (st, some e)
    | Option.none =>
      match v with
      | .tuple l => (resize st (toShape l), Option.none)
      | _ => (st, some .typeError)

/-!
### `l5x/tag.py` — structure values

A structure's members are modelled as an association list from member
name to current member value, in declaration order, with distinct names.
Member-level write validation is not modelled: the claims about
`StructureValue` concern which members are written, not the per-member
codecs.
-/

/-- Member names in declaration order (`struct.members.names`). -/
def structure_names (ms : List (String × PyVal)) : List String := ms.map Prod.fst

/-- Value of the named member (`struct[m].value` read): the first entry
with a matching name. -/
def lookupD : List (String × PyVal) → String → PyVal
  | [], _ => .none
  | p :: t, n => if p.1 = n then p.2 else lookupD t n

/-- `struct[m].value = v`: update the named member. -/
def setMember : List (String × PyVal) → String → PyVal → List (String × PyVal)
  | [], _, _ => []
  | p :: t, k, v => (if p.1 = k then (p.1, v) else p) :: setMember t k v

/-- `StructureValue.__get__`: an ordered name-to-value mapping over all
members (`dict(zip(member_names, values))`). -/
def structure_value_get (ms : List (String × PyVal)) : List (String × PyVal) :=
  (structure_names ms).map (fun n => (n, lookupD ms n))

/-- The member-update loop of `StructureValue.__set__` (`for m in
value.keys(): struct[m].value = value[m]`): an unknown member name
raises `KeyError`, stopping the loop but keeping earlier updates. -/
def structure_set_go (ms : List (String × PyVal)) :
    List (String × PyVal) → List (String × PyVal) × Option PyError
  | [] => (ms, Option.none)
  | (k, v) :: rest =>
    if (structure_names ms).contains k then structure_set_go (setMember ms k v) rest
    else (ms, some .keyError)

/-- `StructureValue.__set__`: a non-dict value is a `TypeError`; a dict
applies each present key to the corresponding member. -/
def structure_value_set (ms : List (String × PyVal)) (v : PyVal) :
    List (String × PyVal) × Option PyError :=
  match v with
  | .dict pairs => structure_set_go ms pairs
  | _ => (ms, some .typeError)

end TagData


/-!
## Theorems

Helper lemmas first, then the claim theorems.  Python's `~`, `|`, `&` on
`int` agree with `Int.lnot`, `Int.lor`, `Int.land`.
-/

theorem int_lnot_eq (x : Int) : Int.lnot x = -x - 1 := by
  cases x with
  | ofNat m =>
    show Int.negSucc m = -(Int.ofNat m) - 1
    rw [Int.negSucc_eq, Int.ofNat_eq_natCast]; ring
  | negSucc m =>
    show (Int.ofNat m) = -(Int.negSucc m) - 1
    rw [Int.negSucc_eq, Int.ofNat_eq_natCast]; ring

theorem nat_ldiff_zero (m : Nat) : Nat.ldiff m 0 = m := by
  show Nat.bitwise _ m 0 = m
  rw [Nat.bitwise_zero_right]
  simp

theorem int_zero_lor (x : Int) : Int.lor 0 x = x := by
  cases x with
  | ofNat m => show (((0 ||| m : Nat) : Nat) : Int) = Int.ofNat m; rw [Nat.zero_or]; rfl
  | negSucc m => show Int.negSucc (Nat.ldiff m 0) = Int.negSucc m; rw [nat_ldiff_zero]

theorem int_neg_one_land (x : Int) : Int.land (-1) x = x := by
  have h : (-1 : Int) = Int.negSucc 0 := rfl
  cases x with
  | ofNat m =>
    rw [h]
    show ((Nat.ldiff m 0 : Nat) : Int) = Int.ofNat m
    rw [nat_ldiff_zero]; rfl
  | negSucc m =>
    rw [h]
    show Int.negSucc (0 ||| m) = Int.negSucc m
    rw [Nat.zero_or]

namespace Atomic

theorem leDecode_leBytes (n : Nat) : ∀ u : Nat, leDecode (leBytes n u) = u % 2 ^ (8 * n) := by
  induction n with
  | zero => intro u; simp [leBytes, leDecode, Nat.mod_one]
  | succ m ih =>
    intro u
    have hB : (0 : Nat) < 2 ^ (8 * m) := Nat.pos_pow_of_pos _ (by norm_num)
    have hpow : (2 : Nat) ^ (8 * (m + 1)) = 256 * 2 ^ (8 * m) := by
      rw [Nat.mul_succ, pow_add]; ring
    have ha : u % 256 < 256 := Nat.mod_lt _ (by norm_num)
    have hq : u / 256 % 2 ^ (8 * m) < 2 ^ (8 * m) := Nat.mod_lt _ hB
    have h256 : (256 : Nat) ≤ 256 * 2 ^ (8 * m) := by
      calc (256 : Nat) = 256 * 1 := by ring
        _ ≤ 256 * 2 ^ (8 * m) := Nat.mul_le_mul_left _ hB
    have hsum : u % 256 + 256 * (u / 256 % 2 ^ (8 * m)) < 256 * 2 ^ (8 * m) := by
      omega
    calc leDecode (leBytes (m + 1) u) = u % 256 + 256 * (u / 256 % 2 ^ (8 * m)) := by
          rw [leBytes, leDecode, ih]
      _ = (u % 256 + 256 * (u / 256)) % (256 * 2 ^ (8 * m)) := by
          rw [Nat.add_mod, Nat.mul_mod_mul_left,
            Nat.mod_eq_of_lt (lt_of_lt_of_le ha h256), Nat.mod_eq_of_lt hsum]
      _ = u % 2 ^ (8 * (m + 1)) := by rw [Nat.mod_add_div, hpow]

theorem load_store (n : Nat) (hn : 1 ≤ n) (i : Int)
    (hmin : value_min n ≤ i) (hmax : i ≤ value_max n) :
    load n (store n i) = i := by
  have hsplit : bits n - 1 + 1 = bits n := by
    have : 8 ≤ bits n := by simpa [bits] using Nat.mul_le_mul_left 8 hn
    omega
  have hhalf : (2 : Int) ^ bits n = 2 ^ (bits n - 1) * 2 := by
    rw [← pow_succ, hsplit]
  have hMpos : (0 : Int) < 2 ^ bits n := by positivity
  have hcast : ((2 ^ bits n : Nat) : Int) = 2 ^ bits n := by push_cast; ring
  have hcasth : ((2 ^ (bits n - 1) : Nat) : Int) = 2 ^ (bits n - 1) := by push_cast; ring
  simp only [value_min, value_max] at hmin hmax
  rcases le_or_lt 0 i with hpos | hneg
  · -- non-negative values are stored and reloaded verbatim
    have hlt : i < 2 ^ (bits n - 1) := by omega
    have hltM : i < 2 ^ bits n := by
      have : (2 : Int) ^ (bits n - 1) ≤ 2 ^ bits n := by nlinarith [hhalf]
      omega
    have hmod : i % (2 ^ bits n : Int) = i := Int.emod_eq_of_lt hpos hltM
    have htoNat : ((i.toNat : Int)) = i := Int.toNat_of_nonneg hpos
    have hNatlt : i.toNat < 2 ^ bits n := by
      have := Int.toNat_lt (n := 2 ^ bits n) hpos
      omega
    have hNatlth : i.toNat < 2 ^ (bits n - 1) := by omega
    unfold load store
    rw [hmod, leDecode_leBytes, ← bits]
    rw [Nat.mod_eq_of_lt hNatlt]
    unfold toSigned
    rw [if_pos hNatlth]
    exact htoNat
  · -- negative values wrap to the upper half of the unsigned range
    have hwrap : i % (2 ^ bits n : Int) = i + 2 ^ bits n := by
      have h1 : i % (2 ^ bits n : Int) = (i + 2 ^ bits n * 1) % (2 ^ bits n : Int) := by
        rw [Int.add_mul_emod_self_left]
      have h2 : (0 : Int) ≤ i + 2 ^ bits n := by nlinarith [hhalf]
      have h3 : i + 2 ^ bits n < 2 ^ bits n := by omega
      rw [h1]
      have h4 : i + 2 ^ bits n * 1 = i + 2 ^ bits n := by ring
      rw [h4, Int.emod_eq_of_lt h2 h3]
    have h2 : (0 : Int) ≤ i + 2 ^ bits n := by nlinarith [hhalf]
    have htoNat : (((i + 2 ^ bits n).toNat : Int)) = i + 2 ^ bits n :=
      Int.toNat_of_nonneg h2
    have hNatlt : (i + 2 ^ bits n).toNat < 2 ^ bits n := by
      have h3 : i + 2 ^ bits n < 2 ^ bits n := by omega
      omega
    have hNatge : ¬ (i + 2 ^ bits n).toNat < 2 ^ (bits n - 1) := by
      have : (2 : Int) ^ (bits n - 1) ≤ i + 2 ^ bits n := by nlinarith [hhalf]
      omega
    unfold load store
    rw [hwrap, leDecode_leBytes, ← bits, Nat.mod_eq_of_lt hNatlt]
    unfold toSigned
    rw [if_neg hNatge, htoNat]
    ring

theorem toSigned_bound (w : Nat) (u : Nat) (hu : u < 2 ^ w) :
    toSigned w u % (2 ^ w : Int) = (u : Int) := by
  unfold toSigned
  have hcast : ((2 ^ w : Nat) : Int) = 2 ^ w := by push_cast; ring
  split
  · exact Int.emod_eq_of_lt (by positivity) (by omega)
  · rw [sub_eq_add_neg, add_comm]
    rw [show (-(2 ^ w : Int) + u) = (u : Int) + 2 ^ w * (-1) by ring]
    rw [Int.add_mul_emod_self_left]
    exact Int.emod_eq_of_lt (by positivity) (by omega)

/-- C2: for every integer kind SINT/INT/DINT/LINT of byte width `n`,
writing any value in `[-2^(8n-1), 2^(8n-1)-1]` succeeds and a subsequent
read returns exactly that value; writing `value_min - 1` or
`value_max + 1` raises `ValueError`, and writing a non-integer input
raises `TypeError`. -/
theorem C2_integer_roundtrip (n : Nat) (hn : n = 1 ∨ n = 2 ∨ n = 4 ∨ n = 8) :
    (∀ i : Int, value_min n ≤ i → i ≤ value_max n →
      integer_write n (.int i) = .ok (store n i) ∧ load n (store n i) = i) ∧
    integer_write n (.int (value_min n - 1)) = .error .valueError ∧
    integer_write n (.int (value_max n + 1)) = .error .valueError ∧
    (∀ v : PyVal, pyIsInstInt v = false → integer_write n v = .error .typeError) := by
  have hn1 : 1 ≤ n := by rcases hn with h | h | h | h <;> omega
  have hminmax : value_min n ≤ value_max n := by
    have : (0 : Int) < 2 ^ (bits n - 1) := by positivity
    unfold value_min value_max; omega
  refine ⟨fun i h1 h2 => ⟨?_, load_store n hn1 i h1 h2⟩, ?_, ?_, fun v hv => ?_⟩
  · unfold integer_write
    rw [if_neg (by simp [pyIsInstInt])]
    rw [if_neg (by simp only [pyToInt]; push_neg; omega)]
    rfl
  · unfold integer_write
    rw [if_neg (by simp [pyIsInstInt])]
    rw [if_pos (by simp only [pyToInt]; omega)]
  · unfold integer_write
    rw [if_neg (by simp [pyIsInstInt])]
    rw [if_pos (by simp only [pyToInt]; omega)]
  · unfold integer_write
    rw [if_pos hv]

theorem C2_witness : value_min 1 ≤ -128 ∧ (-128 : Int) ≤ value_max 1 ∧
    integer_write 1 (.int (-128)) = .ok (store 1 (-128)) ∧
    load 1 (store 1 (-128)) = -128 ∧
    integer_write 1 (.int (-129)) = .error .valueError ∧
    integer_write 2 (.int 32768) = .error .valueError ∧
    integer_write 8 (.str "x") = .error .typeError := by
  have h := C2_integer_roundtrip 1 (by norm_num)
  have h2 := C2_integer_roundtrip 2 (by norm_num)
  have h8 := C2_integer_roundtrip 8 (by norm_num)
  have hmin : value_min 1 = -128 := by decide
  have hmax : value_max 1 = 127 := by decide
  refine ⟨by omega, by omega, ?_, ?_, ?_, ?_, h8.2.2.2 _ rfl⟩
  · exact (h.1 (-128) (by omega) (by omega)).1
  · exact (h.1 (-128) (by omega) (by omega)).2
  · have := h.2.1; rwa [hmin] at this
  · have h2max : value_max 2 = 32767 := by decide
    have := h2.2.2.1; rwa [show value_max 2 + 1 = 32768 by omega] at this

/-- C4: for a one-dimensional BOOL array of 32 elements backed by 4 zero
bytes, setting element 9 to 1 sets only bit 1 of byte 1
(`buffer[1] == 0x02`) and every other element still reads 0; an element
index `i` maps to byte offset `i / 8` and mask `1 <<< (i % 8)`, and a
write never touches any byte other than `i / 8`. -/
theorem C4_bool_array_bit :
    (∀ i : Nat, get_bit_index i = i / 8 ∧ get_mask (get_bit_position i) = 2 ^ (i % 8)) ∧
    bool_array_set [0, 0, 0, 0] 9 (.int 1) = .ok [0, 2, 0, 0] ∧
    bool_array_get [0, 2, 0, 0] 9 = 1 ∧
    (∀ j : Nat, j < 32 → j ≠ 9 → bool_array_get [0, 2, 0, 0] j = 0) ∧
    (∀ (buf : List Nat) (i v : Nat) (k : Nat), k ≠ i / 8 →
      ((bool_array_set buf i (.int v)).toOption.getD buf).getD k 0 = buf.getD k 0) := by
  refine ⟨fun i => ⟨rfl, rfl⟩, by rfl, by decide, by decide, ?_⟩
  intro buf i v k hk
  unfold bool_array_set
  cases h : boolvalue_set (buf.getD (get_bit_index i) 0) (get_bit_position i) (.int v) with
  | ok byte =>
    simp only [Except.toOption, Option.getD]
    rw [List.getD_eq_getElem?_getD, List.getD_eq_getElem?_getD,
      List.getElem?_set_ne (by simpa [get_bit_index] using (Ne.symm hk))]
  | error e => simp [Except.toOption]

theorem C4_witness :
    (3 : Nat) < 32 ∧ (3 : Nat) ≠ 9 ∧ bool_array_get [0, 2, 0, 0] 3 = 0 ∧
    (2 : Nat) ≠ 9 / 8 ∧
    ((bool_array_set [0, 0, 0, 0] 9 (.int 1)).toOption.getD [0, 0, 0, 0]).getD 2 0 =
      ([0, 0, 0, 0] : List Nat).getD 2 0 := by
  refine ⟨by norm_num, by norm_num, C4_bool_array_bit.2.2.2.1 3 (by norm_num) (by norm_num),
    by norm_num, C4_bool_array_bit.2.2.2.2 [0, 0, 0, 0] 9 1 2 (by norm_num)⟩

end Atomic

namespace TagData

theorem ctypeTrunc_toSigned (w : Nat) (u : Nat) (hu : u < 2 ^ w) :
    ctypeTrunc w (Atomic.toSigned w u) = Atomic.toSigned w u := by
  unfold ctypeTrunc
  rw [Atomic.toSigned_bound w u hu, Int.toNat_natCast]

theorem ctypeTrunc_congr (w : Nat) (x y : Int) (h : x % (2 ^ w : Int) = y % (2 ^ w : Int)) :
    ctypeTrunc w x = ctypeTrunc w y := by
  unfold ctypeTrunc; rw [h]

/-- C3: on an `w`-bit integer holding 0, setting bit `b` (any `b < w`,
sign bit included) through `BitValue` yields exactly the two's-complement
reinterpretation of `1 <<< b`; on an all-ones integer (value `-1`),
clearing bit `b` yields `~(1 <<< b)` truncated to `w` bits; the
read-modify-write goes through the exact-width signed ctype view. -/
theorem C3_bit_aliasing (w b : Nat) (hw : 1 ≤ w) (hb : b < w) :
    (bitvalue_set w 0 b (.int 1) = .ok (Atomic.toSigned w (2 ^ b)) ∧
      Atomic.toSigned w (2 ^ b) =
        if b = w - 1 then -(2 ^ (w - 1) : Int) else (2 ^ b : Int)) ∧
    (bitvalue_set w (-1) b (.int 0) = .ok (ctypeTrunc w (Int.lnot (2 ^ b))) ∧
      ctypeTrunc w (Int.lnot (2 ^ b)) = Atomic.toSigned w (2 ^ w - 1 - 2 ^ b)) := by
  have hcastw : ((2 ^ w : Nat) : Int) = 2 ^ w := by push_cast; ring
  have hcasth : ((2 ^ (w - 1) : Nat) : Int) = 2 ^ (w - 1) := by push_cast; ring
  have hcastb : ((2 ^ b : Nat) : Int) = 2 ^ b := by push_cast; ring
  have hsplit : w - 1 + 1 = w := by omega
  have hhalfN : (2 : Nat) ^ w = 2 ^ (w - 1) * 2 := by rw [← pow_succ, hsplit]
  have hbltN : (2 : Nat) ^ b < 2 ^ w := Nat.pow_lt_pow_right (by norm_num) hb
  have hposw : (0 : Nat) < 2 ^ w := Nat.pos_pow_of_pos _ (by norm_num)
  have hposh : (0 : Nat) < 2 ^ (w - 1) := Nat.pos_pow_of_pos _ (by norm_num)
  have hposwI : (0 : Int) < 2 ^ w := by positivity
  have hbltI : (2 : Int) ^ b < 2 ^ w := by exact_mod_cast hbltN
  -- the ctype truncation of the mask is the signed reading of the bit
  have hmask : bitMask w b = Atomic.toSigned w (2 ^ b) := by
    unfold bitMask ctypeTrunc
    rw [show ((2 : Int) ^ b) = ((2 ^ b : Nat) : Int) from hcastb.symm]
    rw [Int.emod_eq_of_lt (by positivity) (by exact_mod_cast hbltN)]
    rw [Int.toNat_natCast]
  have htrunc0 : ctypeTrunc w 0 = 0 := by
    unfold ctypeTrunc
    rw [Int.zero_emod]
    show Atomic.toSigned w 0 = 0
    unfold Atomic.toSigned
    rw [if_pos hposh]
    rfl
  have hset : bitvalue_set w 0 b (.int 1) = .ok (Atomic.toSigned w (2 ^ b)) := by
    unfold bitvalue_set
    rw [if_neg (by simp [pyIsInstInt])]
    rw [if_neg (by simp [pyToInt])]
    rw [if_pos (by simp [pyToInt])]
    rw [htrunc0, hmask, int_zero_lor, ctypeTrunc_toSigned w _ hbltN]
  have hchar : Atomic.toSigned w (2 ^ b) =
      if b = w - 1 then -(2 ^ (w - 1) : Int) else (2 ^ b : Int) := by
    unfold Atomic.toSigned
    rcases eq_or_ne b (w - 1) with hbe | hbe
    · subst hbe
      rw [if_neg (lt_irrefl _), if_pos rfl]
      rw [hcasth]
      have : (2 : Int) ^ w = 2 ^ (w - 1) * 2 := by
        exact_mod_cast congrArg (fun t : Nat => (t : Int)) hhalfN
      omega
    · have hblt : b < w - 1 := by omega
      have : (2 : Nat) ^ b < 2 ^ (w - 1) := Nat.pow_lt_pow_right (by norm_num) hblt
      rw [if_pos this, if_neg hbe, hcastb]
  -- clear branch
  have htruncm1 : ctypeTrunc w (-1) = -1 := by
    unfold ctypeTrunc
    have h1 : (-1 : Int) % (2 ^ w : Int) = 2 ^ w - 1 := by
      rw [show (-1 : Int) = (2 ^ w - 1) + 2 ^ w * (-1) by ring, Int.add_mul_emod_self_left]
      exact Int.emod_eq_of_lt (by omega) (by omega)
    rw [h1]
    have h2 : ((2 ^ w - 1 : Int)).toNat = 2 ^ w - 1 := by omega
    rw [h2]
    unfold Atomic.toSigned
    rw [if_neg (by omega)]
    have h3 : ((2 ^ w - 1 : Nat) : Int) = 2 ^ w - 1 := by omega
    rw [h3]; ring
  have hlnotcongr : ctypeTrunc w (Int.lnot (bitMask w b)) = ctypeTrunc w (Int.lnot (2 ^ b)) := by
    apply ctypeTrunc_congr
    rw [int_lnot_eq, int_lnot_eq]
    have hmm : bitMask w b % (2 ^ w : Int) = (2 ^ b : Int) % (2 ^ w : Int) := by
      rw [hmask]
      rw [Atomic.toSigned_bound w _ hbltN, hcastb,
        Int.emod_eq_of_lt (by positivity) hbltI]
    have h5 : bitMask w b ≡ (2 ^ b : Int) [ZMOD (2 ^ w : Int)] := hmm
    exact (h5.neg).sub_right 1
  have hclr : bitvalue_set w (-1) b (.int 0) = .ok (ctypeTrunc w (Int.lnot (2 ^ b))) := by
    unfold bitvalue_set
    rw [if_neg (by simp [pyIsInstInt])]
    rw [if_neg (by simp [pyToInt])]
    rw [if_neg (by simp [pyToInt])]
    rw [htruncm1, int_neg_one_land, hlnotcongr]
  have hclrval : ctypeTrunc w (Int.lnot (2 ^ b)) = Atomic.toSigned w (2 ^ w - 1 - 2 ^ b) := by
    rw [int_lnot_eq]
    unfold ctypeTrunc
    have h1 : (-(2 ^ b : Int) - 1) % (2 ^ w : Int) = 2 ^ w - 2 ^ b - 1 := by
      rw [show (-(2 ^ b : Int) - 1) = (2 ^ w - 2 ^ b - 1) + 2 ^ w * (-1) by ring,
        Int.add_mul_emod_self_left]
      have hbpos : (0 : Int) < 2 ^ b := by positivity
      exact Int.emod_eq_of_lt (by omega) (by omega)
    rw [h1]
    congr 1
    omega
  exact ⟨⟨hset, hchar⟩, ⟨hclr, hclrval⟩⟩

theorem C3_witness :
    (1 ≤ 8 ∧ (7 : Nat) < 8) ∧
    bitvalue_set 8 0 7 (.int 1) = .ok (Atomic.toSigned 8 (2 ^ 7)) ∧
    bitvalue_set 8 (-1) 7 (.int 0) = .ok (ctypeTrunc 8 (Int.lnot (2 ^ 7))) := by
  have h := C3_bit_aliasing 8 7 (by norm_num) (by norm_num)
  exact ⟨⟨by norm_num, by norm_num⟩, h.1.1, h.2.1⟩

/-- C10: writing a Python `bool` (`True` or `False`) as the value of a
decorated integer or BOOL tag raises `TypeError` — `bool` is explicitly
excluded by `IntegerValue.__set__` even though it is an `int` subtype —
and the stored value is left unchanged (BOOL tags use the same
descriptor with range 0..1). -/
theorem C10_bool_write_rejected (vmin vmax : Int) (st : Int) (b : Bool) :
    integervalue_set vmin vmax st (.bool b) = (st, some .typeError) ∧
    integervalue_set 0 1 st (.bool b) = (st, some .typeError) := by
  constructor <;>
    · unfold integervalue_set
      rw [if_pos (by simp [pyIsInstBool])]

end TagData


namespace ArrayRaw

theorem prodInit_eq (init : Nat) (l : List Nat) : prodInit init l = init * l.prod := by
  induction l generalizing init with
  | nil => simp [prodInit]
  | cons a t ih =>
    show t.foldl (· * ·) (init * a) = init * (a :: t).prod
    rw [show t.foldl (· * ·) (init * a) = prodInit (init * a) t from rfl, ih, List.prod_cons]
    ring

theorem prod_take_eq (l : List Nat) (m : Nat) :
    (l.take (l.length - m)).prod = (l.reverse.drop m).prod := by
  rw [List.drop_reverse, List.prod_reverse]

theorem element_offset_from_eq (shape : List Nat) (e : Nat) :
    ∀ (s : List Nat) (c : Nat), c + s.length = shape.length →
      element_offset_from shape e c s = e * subVal (shape.reverse.drop c) s := by
  intro s
  induction s with
  | nil =>
    intro c h
    cases hd : shape.reverse.drop c with
    | nil => simp [element_offset_from, subVal]
    | cons x xs => simp [element_offset_from, subVal]
  | cons i rest ih =>
    intro c h
    have hc : c < shape.length := by
      have := List.length_cons i rest
      omega
    have hcR : c < shape.reverse.length := by simpa using hc
    rw [element_offset_from, List.drop_eq_getElem_cons hcR, subVal,
      ih (c + 1) (by simp at h ⊢; omega)]
    rw [get_buffer_start, get_buffer_num_bytes, prodInit_eq, prod_take_eq]
    ring

/-- For an in-bounds subscript tuple the absolute offset computed by the
chain of `get_buffer` slices is the row-major flat index scaled by the
element size. -/
theorem element_offset_valid_eq (shape : List Nat) (e : Nat) (s : List Nat)
    (h : ValidSub shape.reverse s) :
    element_offset shape e s = e * subVal shape.reverse s := by
  have hlen : s.length = shape.length := by
    have := h.length_eq
    simpa using this.symm
  have := element_offset_from_eq shape e s 0 (by omega)
  simpa [element_offset] using this

theorem subVal_lt : ∀ (R s : List Nat), ValidSub R s → subVal R s < R.prod := by
  intro R s h
  induction h with
  | nil => simp [subVal]
  | @cons d j ds js hj htail ih =>
    rw [subVal, List.prod_cons]
    have hP : 0 < ds.prod := by omega
    calc j * ds.prod + subVal ds js < j * ds.prod + ds.prod := by omega
      _ = (j + 1) * ds.prod := by ring
      _ ≤ d * ds.prod := Nat.mul_le_mul_right _ (by omega)

theorem subVal_inj : ∀ (R s t : List Nat), ValidSub R s → ValidSub R t →
    subVal R s = subVal R t → s = t := by
  intro R
  induction R with
  | nil =>
    intro s t hs ht _
    cases hs
    cases ht
    rfl
  | cons d ds ih =>
    intro s t hs ht heq
    cases hs with
    | @cons _ j _ js hj hjs =>
      cases ht with
      | @cons _ k _ ks hk hks =>
        rw [subVal, subVal] at heq
        have hjsv : subVal ds js < ds.prod := subVal_lt ds js hjs
        have hksv : subVal ds ks < ds.prod := subVal_lt ds ks hks
        have hP : 0 < ds.prod := by omega
        have hjk : j = k := by
          rcases Nat.lt_trichotomy j k with hlt | he | hgt
          · exfalso
            have h1 : (j + 1) * ds.prod ≤ k * ds.prod := Nat.mul_le_mul_right _ (by omega)
            have h2 : j * ds.prod + subVal ds js < (j + 1) * ds.prod := by
              have : (j + 1) * ds.prod = j * ds.prod + ds.prod := by ring
              omega
            omega
          · exact he
          · exfalso
            have h1 : (k + 1) * ds.prod ≤ j * ds.prod := Nat.mul_le_mul_right _ (by omega)
            have h2 : k * ds.prod + subVal ds ks < (k + 1) * ds.prod := by
              have : (k + 1) * ds.prod = k * ds.prod + ds.prod := by ring
              omega
            omega
        subst hjk
        have : subVal ds js = subVal ds ks := by omega
        rw [ih js ks hjs hks this]

theorem subVal_surj : ∀ (R : List Nat) (t : Nat), t < R.prod →
    ∃ s, ValidSub R s ∧ subVal R s = t := by
  intro R
  induction R with
  | nil =>
    intro t ht
    simp only [List.prod_nil] at ht
    refine ⟨[], List.Forall₂.nil, ?_⟩
    simp [subVal]
    omega
  | cons d ds ih =>
    intro t ht
    rw [List.prod_cons] at ht
    have hP : 0 < ds.prod := by
      rcases Nat.eq_zero_or_pos ds.prod with h0 | h0
      · rw [h0, Nat.mul_zero] at ht; omega
      · exact h0
    have hj : t / ds.prod < d := Nat.div_lt_of_lt_mul (by rw [Nat.mul_comm]; exact ht)
    rcases ih (t % ds.prod) (Nat.mod_lt _ hP) with ⟨js, hjs, hval⟩
    refine ⟨t / ds.prod :: js, List.Forall₂.cons hj hjs, ?_⟩
    rw [subVal, hval, Nat.mul_comm, Nat.div_add_mod]

/-- C1 (amended): for a non-BOOL array, in-bounds subscript tuples have
pairwise non-overlapping element spans of `esize` bytes, and the spans
exactly tile the data region of `esize * product(dims)` bytes — the raw
footprint minus its 32-bit tail padding, which no element span covers. -/
theorem C1_array_spans (shape : List Nat) (e : Nat) (he : 1 ≤ e) :
    (∀ s t, ValidSub shape.reverse s → ValidSub shape.reverse t → s ≠ t →
      element_offset shape e s + e ≤ element_offset shape e t ∨
      element_offset shape e t + e ≤ element_offset shape e s) ∧
    (∀ s, ValidSub shape.reverse s → element_offset shape e s + e ≤ e * shape.prod) ∧
    (∀ b, b < e * shape.prod → ∃ s, ValidSub shape.reverse s ∧
      element_offset shape e s ≤ b ∧ b < element_offset shape e s + e) := by
  have hprodR : shape.reverse.prod = shape.prod := List.prod_reverse shape
  refine ⟨fun s t hs ht hne => ?_, fun s hs => ?_, fun b hb => ?_⟩
  · rw [element_offset_valid_eq shape e s hs, element_offset_valid_eq shape e t ht]
    have hv : subVal shape.reverse s ≠ subVal shape.reverse t := by
      intro hcontra
      exact hne (subVal_inj shape.reverse s t hs ht hcontra)
    rcases Nat.lt_or_ge (subVal shape.reverse s) (subVal shape.reverse t) with hlt | hge
    · left
      calc e * subVal shape.reverse s + e = e * (subVal shape.reverse s + 1) := by ring
        _ ≤ e * subVal shape.reverse t := Nat.mul_le_mul_left _ (by omega)
    · right
      have hlt : subVal shape.reverse t < subVal shape.reverse s := by omega
      calc e * subVal shape.reverse t + e = e * (subVal shape.reverse t + 1) := by ring
        _ ≤ e * subVal shape.reverse s := Nat.mul_le_mul_left _ (by omega)
  · rw [element_offset_valid_eq shape e s hs]
    have hv : subVal shape.reverse s < shape.prod := by
      have := subVal_lt shape.reverse s hs
      omega
    calc e * subVal shape.reverse s + e = e * (subVal shape.reverse s + 1) := by ring
      _ ≤ e * shape.prod := Nat.mul_le_mul_left _ (by omega)
  · have he0 : 0 < e := he
    have hq : b / e < shape.prod := Nat.div_lt_of_lt_mul hb
    rcases subVal_surj shape.reverse (b / e) (by omega) with ⟨s, hs, hval⟩
    refine ⟨s, hs, ?_, ?_⟩
    · rw [element_offset_valid_eq shape e s hs, hval]
      calc e * (b / e) = b / e * e := by ring
        _ ≤ b := Nat.div_mul_le_self b e
    · rw [element_offset_valid_eq shape e s hs, hval]
      have hdm : e * (b / e) + b % e = b := Nat.div_add_mod b e
      have hr : b % e < e := Nat.mod_lt _ he0
      omega

theorem C1_array_spans_witness : (1 : Nat) ≤ 4 ∧
    ((∀ s t, ValidSub ([3, 2] : List Nat).reverse s → ValidSub ([3, 2] : List Nat).reverse t →
        s ≠ t →
        element_offset [3, 2] 4 s + 4 ≤ element_offset [3, 2] 4 t ∨
        element_offset [3, 2] 4 t + 4 ≤ element_offset [3, 2] 4 s) ∧
      (∀ s, ValidSub ([3, 2] : List Nat).reverse s →
        element_offset [3, 2] 4 s + 4 ≤ 4 * ([3, 2] : List Nat).prod) ∧
      (∀ b, b < 4 * ([3, 2] : List Nat).prod → ∃ s, ValidSub ([3, 2] : List Nat).reverse s ∧
        element_offset [3, 2] 4 s ≤ b ∧ b < element_offset [3, 2] 4 s + 4)) :=
  ⟨by norm_num, C1_array_spans [3, 2] 4 (by norm_num)⟩

/-- C1 fails as stated: for a SINT array of dimensions `(5,)` the raw
footprint `RawSize` reports is 8 (padded to a 32-bit boundary), but the
element spans cover only bytes 0..4, so byte 5 of the footprint lies in
no element's span. -/
theorem C1_counterexample : array_raw_size [5] 1 = 8 ∧
    ¬ coversFootprint [5] 1 (array_raw_size [5] 1) := by
  have h8 : array_raw_size [5] 1 = 8 := by decide
  refine ⟨h8, fun h => ?_⟩
  rcases h 5 (by rw [h8]; norm_num) with ⟨s, hs, hle, hlt⟩
  have hoff : element_offset [5] 1 s = 1 * subVal ([5] : List Nat).reverse s :=
    element_offset_valid_eq [5] 1 s hs
  have hv : subVal ([5] : List Nat).reverse s < 5 := by
    have := subVal_lt ([5] : List Nat).reverse s hs
    simpa using this
  omega

/-- C7: the raw footprint of a non-BOOL array embedded in a composite is
`product(dims) * element_size` rounded up to the next multiple of 4
(lengths 5 through 8 of a 1-byte element give 8; length 9 gives 12),
while a BOOL array's footprint is `dims[0] / 8` bytes with no 4-byte
padding (40 BOOLs give 5 bytes, not a multiple of 4). -/
theorem C7_raw_footprint (shape : List Nat) (e : Nat) :
    4 ∣ array_raw_size shape e ∧
    prodInit e shape ≤ array_raw_size shape e ∧
    array_raw_size shape e < prodInit e shape + 4 ∧
    array_raw_size shape e = e * shape.prod + (4 - e * shape.prod % 4) % 4 ∧
    array_raw_size [5] 1 = 8 ∧ array_raw_size [6] 1 = 8 ∧ array_raw_size [7] 1 = 8 ∧
    array_raw_size [8] 1 = 8 ∧ array_raw_size [9] 1 = 12 ∧
    bool_array_raw_size [32] = 4 ∧ bool_array_raw_size [40] = 5 ∧
    ¬ 4 ∣ bool_array_raw_size [40] := by
  refine ⟨?_, ?_, ?_, ?_, by decide, by decide, by decide, by decide, by decide,
    by decide, by decide, by decide⟩
  · unfold array_raw_size
    omega
  · unfold array_raw_size
    omega
  · unfold array_raw_size
    omega
  · unfold array_raw_size
    rw [prodInit_eq]

end ArrayRaw


namespace TagData

theorem sum_map_const {α : Type} (l : List α) (c : Nat) :
    (l.map (fun _ => c)).sum = l.length * c := by
  induction l with
  | nil => simp
  | cons a t ih => simp [ih, Nat.succ_mul, Nat.add_comm]

theorem cartProd_length (L : List (List Nat)) :
    (cartProd L).length = (L.map List.length).prod := by
  induction L with
  | nil => rfl
  | cons xs rest ih =>
    rw [cartProd, List.length_flatMap]
    simp only [Function.comp_def, List.length_map]
    rw [sum_map_const xs (cartProd rest).length, ih]
    rw [List.map_cons, List.prod_cons]

theorem cartProd_nodup (L : List (List Nat)) (h : ∀ l ∈ L, l.Nodup) :
    (cartProd L).Nodup := by
  induction L with
  | nil => simp [cartProd]
  | cons xs rest ih =>
    rw [cartProd, List.nodup_flatMap]
    refine ⟨fun x _ => ?_, ?_⟩
    · exact (ih (fun l hl => h l (List.mem_cons_of_mem _ hl))).map
        (fun a b hab => by injection hab)
    · have hxs : xs.Nodup := h xs (List.mem_cons_self _ _)
      refine List.Pairwise.imp ?_ hxs
      intro a b hab
      intro t hta htb
      apply hab
      rcases List.mem_map.mp hta with ⟨u, hum, hu⟩
      rcases List.mem_map.mp htb with ⟨v, hvm, hv⟩
      rw [← hu] at hv
      injection hv with h1 h2
      exact h1.symm

theorem build_new_indices_length (shape : List Nat) :
    (build_new_indices shape).length = shape.prod := by
  rw [build_new_indices, cartProd_length, List.map_reverse, List.map_map]
  rw [List.prod_reverse]
  have hcomp : (List.length ∘ List.range) = id := funext fun x => List.length_range x
  rw [hcomp, List.map_id]

theorem build_new_indices_nodup (shape : List Nat) :
    (build_new_indices shape).Nodup := by
  apply cartProd_nodup
  intro l hl
  rcases List.mem_reverse.mp hl with hl2
  rcases List.mem_map.mp hl2 with ⟨x, _, hx⟩
  rw [← hx]
  exact List.nodup_range x

/-- C5: after `resize(shape)` with a valid shape, reading `shape` back
returns the same tuple; exactly `product(shape)` elements are generated
with pairwise-distinct `Index` attributes, ordered with the
least-significant dimension varying fastest, and the serialized
dimension attributes list the dimensions most-significant first
(resizing to shape `(2, 3)` yields the top-level attribute `"3 2"` and
exactly 6 element indices). -/
theorem C5_resize_shape (st : ArrayState) (shape : List Nat)
    (hlen1 : 1 ≤ shape.length) (hlen3 : shape.length ≤ 3) (hpos : ∀ d ∈ shape, 1 ≤ d) :
    shape_get (resize st shape) = shape ∧
    (resize st shape).tag_dims = shape.reverse ∧
    (resize st shape).indices.length = shape.prod ∧
    (resize st shape).indices.Nodup ∧
    tag_dims_string (resize st [2, 3]) = "3 2" ∧
    (resize st [2, 3]).indices = [[0, 0], [0, 1], [1, 0], [1, 1], [2, 0], [2, 1]] ∧
    (resize st [2, 3]).indices.map index_attr =
      ["[0,0]", "[0,1]", "[1,0]", "[1,1]", "[2,0]", "[2,1]"] ∧
    ((resize st [2, 3]).indices.map index_attr).Nodup := by
  have hshape : shape_get (resize st shape) = shape := by
    simp [shape_get, resize, set_dimensions]
  have hstr : tag_dims_string (resize st [2, 3]) = "3 2" := rfl
  have hind : (resize st [2, 3]).indices = [[0, 0], [0, 1], [1, 0], [1, 1], [2, 0], [2, 1]] := rfl
  have hmap : (resize st [2, 3]).indices.map index_attr =
      ["[0,0]", "[0,1]", "[1,0]", "[1,1]", "[2,0]", "[2,1]"] := rfl
  refine ⟨hshape, rfl, build_new_indices_length shape, build_new_indices_nodup shape,
    hstr, hind, hmap, ?_⟩
  rw [hmap]
  decide

theorem C5_resize_shape_witness :
    (1 ≤ ([2, 3] : List Nat).length ∧ ([2, 3] : List Nat).length ≤ 3 ∧
      ∀ d ∈ ([2, 3] : List Nat), 1 ≤ d) ∧
    shape_get (resize ⟨[3], [3], [[0], [1], [2]]⟩ [2, 3]) = [2, 3] ∧
    (resize ⟨[3], [3], [[0], [1], [2]]⟩ [2, 3]).indices.length = ([2, 3] : List Nat).prod ∧
    tag_dims_string (resize ⟨[3], [3], [[0], [1], [2]]⟩ [2, 3]) = "3 2" := by
  have h := C5_resize_shape ⟨[3], [3], [[0], [1], [2]]⟩ [2, 3]
    (by norm_num) (by norm_num) (by decide)
  exact ⟨⟨by norm_num, by norm_num, by decide⟩, h.1, h.2.2.1, h.2.2.2.2.1⟩

theorem check_shape_dims_non_int (l : List PyVal)
    (hall : ∀ d ∈ l, pyIsInstInt d = true → 1 ≤ pyToInt d)
    (hex : ∃ d ∈ l, pyIsInstInt d = false) :
    check_shape_dims l = some .typeError := by
  induction l with
  | nil => rcases hex with ⟨d, hd, _⟩; cases hd
  | cons d rest ih =>
    rw [check_shape_dims]
    cases hd : pyIsInstInt d with
    | false => rw [if_pos rfl]
    | true =>
      rw [if_neg (by simp)]
      have h1 : 1 ≤ pyToInt d := hall d (List.mem_cons_self _ _) hd
      rw [if_neg (by omega)]
      apply ih
      · exact fun x hx => hall x (List.mem_cons_of_mem _ hx)
      · rcases hex with ⟨x, hx, hxf⟩
        rcases List.mem_cons.mp hx with he | hm
        · rw [he] at hxf; rw [hxf] at hd; cases hd
        · exact ⟨x, hm, hxf⟩

theorem check_shape_dims_below_one (l : List PyVal)
    (hall : ∀ d ∈ l, pyIsInstInt d = true)
    (hex : ∃ d ∈ l, pyToInt d < 1) :
    check_shape_dims l = some .valueError := by
  induction l with
  | nil => rcases hex with ⟨d, hd, _⟩; cases hd
  | cons d rest ih =>
    rw [check_shape_dims]
    rw [if_neg (by rw [hall d (List.mem_cons_self _ _)]; simp)]
    by_cases hlow : pyToInt d < 1
    · rw [if_pos hlow]
    · rw [if_neg hlow]
      apply ih
      · exact fun x hx => hall x (List.mem_cons_of_mem _ hx)
      · rcases hex with ⟨x, hx, hxf⟩
        rcases List.mem_cons.mp hx with he | hm
        · rw [he] at hxf; omega
        · exact ⟨x, hm, hxf⟩

/-- C6: resize validates the whole target shape before mutating anything:
a non-tuple shape or (first-offending) non-integer dimension is a
`TypeError`, a dimension count outside 1..3 or a dimension below 1 is a
`ValueError`, every failing case leaves the array state unchanged, and
assigning a shape to a structure-member array is an `AttributeError`
with no mutation. -/
theorem C6_resize_validation :
    (∀ (st : ArrayState) (v : PyVal), arrayshape_set false st v = (st, some .attributeError)) ∧
    (∀ (st : ArrayState) (v : PyVal), pyIsInstTuple v = false →
      arrayshape_set true st v = (st, some .typeError)) ∧
    (∀ (st : ArrayState) (l : List PyVal), l.length < 1 ∨ 3 < l.length →
      arrayshape_set true st (.tuple l) = (st, some .valueError)) ∧
    (∀ (st : ArrayState) (l : List PyVal), 1 ≤ l.length → l.length ≤ 3 →
      (∀ d ∈ l, pyIsInstInt d = true → 1 ≤ pyToInt d) →
      (∃ d ∈ l, pyIsInstInt d = false) →
      arrayshape_set true st (.tuple l) = (st, some .typeError)) ∧
    (∀ (st : ArrayState) (l : List PyVal), 1 ≤ l.length → l.length ≤ 3 →
      (∀ d ∈ l, pyIsInstInt d = true) → (∃ d ∈ l, pyToInt d < 1) →
      arrayshape_set true st (.tuple l) = (st, some .valueError)) ∧
    (∀ (top : Bool) (st : ArrayState) (v : PyVal) (e : PyError),
      (arrayshape_set top st v).2 = some e → (arrayshape_set top st v).1 = st) := by
  refine ⟨fun st v => rfl, fun st v hv => ?_, fun st l hl => ?_, fun st l h1 h3 hall hex => ?_,
    fun st l h1 h3 hall hex => ?_, fun top st v e herr => ?_⟩
  · cases v <;> simp [pyIsInstTuple] at hv <;> rfl
  · have hcs : check_shape (.tuple l) = some .valueError := by
      rw [check_shape, if_pos hl]
    simp [arrayshape_set, hcs]
  · have hcs : check_shape (.tuple l) = some .typeError := by
      rw [check_shape, if_neg (by omega)]
      exact check_shape_dims_non_int l hall hex
    simp [arrayshape_set, hcs]
  · have hcs : check_shape (.tuple l) = some .valueError := by
      rw [check_shape, if_neg (by omega)]
      exact check_shape_dims_below_one l hall hex
    simp [arrayshape_set, hcs]
  · cases top with
    | false => rfl
    | true =>
      cases hcs : check_shape v with
      | some err => simp [arrayshape_set, hcs]
      | none =>
        cases v with
        | tuple l => simp [arrayshape_set, hcs] at herr
        | none => exact absurd hcs (by simp [check_shape])
        | int i => exact absurd hcs (by simp [check_shape])
        | bool b => exact absurd hcs (by simp [check_shape])
        | str s => exact absurd hcs (by simp [check_shape])
        | dict d => exact absurd hcs (by simp [check_shape])

theorem C6_resize_validation_witness :
    arrayshape_set false ⟨[3], [3], [[0], [1], [2]]⟩ (.tuple [.int 2]) =
      (⟨[3], [3], [[0], [1], [2]]⟩, some .attributeError) ∧
    arrayshape_set true ⟨[3], [3], [[0], [1], [2]]⟩ (.str "x") =
      (⟨[3], [3], [[0], [1], [2]]⟩, some .typeError) ∧
    arrayshape_set true ⟨[3], [3], [[0], [1], [2]]⟩
        (.tuple [.int 1, .int 1, .int 1, .int 1]) =
      (⟨[3], [3], [[0], [1], [2]]⟩, some .valueError) ∧
    arrayshape_set true ⟨[3], [3], [[0], [1], [2]]⟩ (.tuple [.int 2, .str "x"]) =
      (⟨[3], [3], [[0], [1], [2]]⟩, some .typeError) ∧
    arrayshape_set true ⟨[3], [3], [[0], [1], [2]]⟩ (.tuple [.int 0]) =
      (⟨[3], [3], [[0], [1], [2]]⟩, some .valueError) := by
  refine ⟨C6_resize_validation.1 _ _, C6_resize_validation.2.1 _ _ rfl,
    C6_resize_validation.2.2.1 _ _ (by norm_num), ?_, ?_⟩
  · exact C6_resize_validation.2.2.2.1 _ _ (by norm_num) (by norm_num)
      (by intro d hd h; fin_cases hd <;> simp_all [pyToInt, pyIsInstInt])
      ⟨.str "x", by norm_num, rfl⟩
  · exact C6_resize_validation.2.2.2.2.1 _ _ (by norm_num) (by norm_num)
      (by intro d hd; fin_cases hd <;> rfl)
      ⟨.int 0, by norm_num, by simp [pyToInt]⟩

end TagData


namespace TagData

theorem setMember_names (ms : List (String × PyVal)) (k : String) (v : PyVal) :
    structure_names (setMember ms k v) = structure_names ms := by
  induction ms with
  | nil => rfl
  | cons p t ih =>
    by_cases h : p.1 = k
    · simp only [structure_names, setMember, List.map_cons, if_pos h] at ih ⊢
      rw [ih]
    · simp only [structure_names, setMember, List.map_cons, if_neg h] at ih ⊢
      rw [ih]

theorem lookupD_setMember_self (ms : List (String × PyVal)) (k : String) (v : PyVal)
    (hk : k ∈ structure_names ms) :
    lookupD (setMember ms k v) k = v := by
  induction ms with
  | nil => cases hk
  | cons p t ih =>
    by_cases h : p.1 = k
    · simp [setMember, lookupD, h]
    · have hk2 : k ∈ structure_names t := by
        rcases List.mem_cons.mp hk with he | hm
        · exact absurd he.symm h
        · exact hm
      simpa [setMember, lookupD, h] using ih hk2

theorem lookupD_setMember_other (ms : List (String × PyVal)) (k : String) (v : PyVal)
    (n : String) (hn : n ≠ k) :
    lookupD (setMember ms k v) n = lookupD ms n := by
  induction ms with
  | nil => rfl
  | cons p t ih =>
    by_cases h : p.1 = k
    · have hpn : ¬ p.1 = n := by rw [h]; exact fun hc => hn hc.symm
      have hkn : ¬ k = n := fun hc => hn hc.symm
      simpa [setMember, lookupD, h, hpn, hkn] using ih
    · by_cases hpn : p.1 = n
      · simp [setMember, lookupD, h, hpn, hn]
      · simpa [setMember, lookupD, h, hpn, hn] using ih

theorem structure_set_go_spec :
    ∀ (u ms : List (String × PyVal)),
      (∀ k ∈ u.map Prod.fst, k ∈ structure_names ms) →
      (u.map Prod.fst).Nodup →
      (structure_set_go ms u).2 = Option.none ∧
      structure_names (structure_set_go ms u).1 = structure_names ms ∧
      (∀ k v, (k, v) ∈ u → lookupD (structure_set_go ms u).1 k = v) ∧
      (∀ n, n ∉ u.map Prod.fst → lookupD (structure_set_go ms u).1 n = lookupD ms n) := by
  intro u
  induction u with
  | nil =>
    intro ms _ _
    exact ⟨rfl, rfl, fun k v hkv => absurd hkv (List.not_mem_nil _), fun n _ => rfl⟩
  | cons p rest ih =>
    intro ms hsub hnodup
    obtain ⟨k, v⟩ := p
    have hk : k ∈ structure_names ms := hsub k (by simp)
    have hcontains : (structure_names ms).contains k = true :=
      List.elem_eq_true_of_mem hk
    have hgo : structure_set_go ms ((k, v) :: rest) = structure_set_go (setMember ms k v) rest := by
      rw [structure_set_go, if_pos hcontains]
    have hsub2 : ∀ x ∈ rest.map Prod.fst, x ∈ structure_names (setMember ms k v) := by
      intro x hx
      rw [setMember_names]
      exact hsub x (by simp [hx])
    have hnodup2 : (rest.map Prod.fst).Nodup := (List.nodup_cons.mp (by simpa using hnodup)).2
    have hknotin : k ∉ rest.map Prod.fst := (List.nodup_cons.mp (by simpa using hnodup)).1
    rcases ih (setMember ms k v) hsub2 hnodup2 with ⟨h1, h2, h3, h4⟩
    refine ⟨by rw [hgo]; exact h1, by rw [hgo, h2, setMember_names], ?_, ?_⟩
    · intro x w hxw
      rcases List.mem_cons.mp hxw with he | hm
      · obtain ⟨hx, hw⟩ : x = k ∧ w = v := by
          constructor <;> [exact congrArg Prod.fst he; exact congrArg Prod.snd he]
        subst hx
        subst hw
        rw [hgo, h4 x hknotin, lookupD_setMember_self ms x w hk]
      · rw [hgo]
        exact h3 x w hm
    · intro n hn
      have hn1 : n ≠ k := fun hc => hn (by simp [hc])
      have hn2 : n ∉ rest.map Prod.fst := fun hc => hn (by simp [hc])
      rw [hgo, h4 n hn2, lookupD_setMember_other ms k v n hn1]

/-- C8: writing a mapping to a structure's value sets exactly the members
named by the mapping's keys and leaves every other member unchanged; the
loop raises nothing when all keys are members, member order is
preserved, and reading the value back returns a name-to-value mapping
over all members paired with their current values.  Writing
`A ↦ 5` to a structure with members `A, B` changes only `A`. -/
theorem C8_structure_partial_write (ms u : List (String × PyVal))
    (hsub : ∀ k ∈ u.map Prod.fst, k ∈ structure_names ms)
    (hnodup : (u.map Prod.fst).Nodup) :
    (structure_value_set ms (.dict u)).2 = Option.none ∧
    structure_names (structure_value_set ms (.dict u)).1 = structure_names ms ∧
    (∀ k v, (k, v) ∈ u → lookupD (structure_value_set ms (.dict u)).1 k = v) ∧
    (∀ n, n ∉ u.map Prod.fst →
      lookupD (structure_value_set ms (.dict u)).1 n = lookupD ms n) ∧
    structure_value_get (structure_value_set ms (.dict u)).1 =
      (structure_names ms).map
        (fun n => (n, lookupD (structure_value_set ms (.dict u)).1 n)) ∧
    structure_value_set [("A", .int 1), ("B", .int 2)] (.dict [("A", .int 5)]) =
      ([("A", .int 5), ("B", .int 2)], Option.none) ∧
    structure_value_get [("A", .int 5), ("B", .int 2)] =
      [("A", .int 5), ("B", .int 2)] := by
  have hset : structure_value_set ms (.dict u) = structure_set_go ms u := rfl
  rcases structure_set_go_spec u ms hsub hnodup with ⟨h1, h2, h3, h4⟩
  refine ⟨by rw [hset]; exact h1, by rw [hset]; exact h2, by rw [hset]; exact h3,
    by rw [hset]; exact h4, ?_, by rfl, by rfl⟩
  rw [hset]
  show structure_value_get (structure_set_go ms u).1 = _
  rw [structure_value_get, h2]

theorem C8_structure_partial_write_witness :
    (∀ k ∈ ([("A", PyVal.int 5)].map Prod.fst),
      k ∈ structure_names [("A", PyVal.int 1), ("B", PyVal.int 2)]) ∧
    (([("A", PyVal.int 5)].map Prod.fst)).Nodup ∧
    (structure_value_set [("A", PyVal.int 1), ("B", PyVal.int 2)]
      (.dict [("A", PyVal.int 5)])).2 = Option.none ∧
    lookupD (structure_value_set [("A", PyVal.int 1), ("B", PyVal.int 2)]
      (.dict [("A", PyVal.int 5)])).1 "A" = PyVal.int 5 ∧
    lookupD (structure_value_set [("A", PyVal.int 1), ("B", PyVal.int 2)]
      (.dict [("A", PyVal.int 5)])).1 "B" =
      lookupD [("A", PyVal.int 1), ("B", PyVal.int 2)] "B" := by
  have h := C8_structure_partial_write [("A", PyVal.int 1), ("B", PyVal.int 2)]
    [("A", PyVal.int 5)] (by intro k hk; fin_cases hk <;> simp [structure_names])
    (by simp)
  refine ⟨by intro k hk; fin_cases hk <;> simp [structure_names], by simp,
    h.1, h.2.2.1 "A" (PyVal.int 5) (by simp), h.2.2.2.1 "B" (by simp)⟩

end TagData

theorem accumIndices_eq_reverse (l : List Nat) : ArrayRaw.accumIndices l = l.reverse := by
  have hgen : ∀ acc : List Nat, l.foldl (fun a i => i :: a) acc = l.reverse ++ acc := by
    induction l with
    | nil => intro acc; simp
    | cons x t ih => intro acc; simp [List.foldl_cons, ih]
  simpa [ArrayRaw.accumIndices] using hgen []

/-- C9: operand paths are built deterministically from the root: a
member's name is appended to its parent's operand with a dot separator
and upper-cased, an array element's applied indices are appended with no
separator in bracketed most-significant-first form, an integer bit
appends a dot and the bit number, and the top-level tag's operand is the
empty string. -/
theorem C9_operand_paths :
    (∀ a : TagData.OperandAttr, TagData.build_operand Option.none a = "") ∧
    (∀ p s, TagData.build_operand (some p) (.name s) = p ++ "." ++ TagData.upper s) ∧
    (∀ p s, TagData.build_operand (some p) (.index s) = p ++ TagData.upper s) ∧
    (∀ (p : String) (applied : List Nat) (last : Nat),
      ArrayRaw.get_operand p (ArrayRaw.accumIndices applied) last =
        p ++ "[" ++ String.intercalate "," ((applied ++ [last]).map Nat.repr) ++ "]") ∧
    (∀ p b, Atomic.get_bit_operand p b = p ++ "." ++ Nat.repr b) ∧
    TagData.build_operand (some (TagData.build_operand Option.none (.name "tag")))
      (.name "foo") = ".FOO" ∧
    TagData.build_operand (some ".FOO") (.name "bar") = ".FOO.BAR" ∧
    TagData.build_operand (some "") (.index "[1,2]") = "[1,2]" ∧
    ArrayRaw.get_operand "" (ArrayRaw.accumIndices [1]) 2 = "[1,2]" ∧
    Atomic.get_bit_operand ".FOO" 3 = ".FOO.3" := by
  refine ⟨fun a => rfl, fun p s => rfl, fun p s => rfl, fun p applied last => ?_,
    fun p b => rfl, by decide, by decide, by decide, by decide, by decide⟩
  rw [ArrayRaw.get_operand, accumIndices_eq_reverse, List.reverse_reverse]

end L5X
